import Mathlib

/-!
Verification of the neo4go schema-migration engine (kirha-ai/neo4go).

Shallow embedding of the Go sources:
  * `migrator.go` — the orchestrator (`Up`, `UpTo`, `DownTo`, `Status`,
    `executeMigration`, `splitStatements`);
  * `parser.go` — the migration-file parser (`parseMigrations`,
    `parseMigrationFile`, `splitUpDown`, the filename pattern);
  * `migrate.go` — configuration validation (`validateConfig`, the
    validation-then-connect phase of `New`).

Go `int` is modelled as `Int` (version numbers can be compared with
negative targets), timestamps as abstract `Nat` values, and the Storage
collaborator as the state it holds: the list of applied-migration
records in the order `GetAppliedMigrations` returns them.  `Init`,
`GetAppliedMigrations`, `RecordMigration` and `RemoveMigration` succeed
(the default behaviour of the repository's mock storage); the calls the
orchestrator makes, and every statement it runs against the database,
are recorded in an explicit event trace so that claims about "no storage
call" / "no statement executed" are statable.  The driver handle is
modelled by `driverNil : Bool`; a single statement's success under
`tx.Run` is modelled by the function parameter `run : String → Bool`.
-/

namespace Neo4go

/-- `Migration` from `migrator.go`/`parser.go`: version, name, forward and
reverse script bodies, and the content checksum. -/
structure Migration where
  version : Int
  name : String
  upSQL : String
  downSQL : String
  checksum : String
  deriving Repr, DecidableEq

/-- `MigrationRecord`: the persisted applied-record (version, name,
applied-at timestamp, checksum captured at application time). -/
structure MigrationRecord where
  version : Int
  name : String
  appliedAt : Nat
  checksum : String
  deriving Repr, DecidableEq

/-- `MigrationStatus`: one row of `Status()` output.  The `appliedAt`
pointer is modelled as an `Option`. -/
structure MigrationStatus where
  version : Int
  name : String
  applied : Bool
  appliedAt : Option Nat
  checksum : String
  deriving Repr, DecidableEq

/-- Errors returned by the orchestrator (from `errors.go` plus the
`fmt.Errorf` wrappers in `migrator.go`).  `applyFailed v` stands for
"failed to apply migration v: ..." and `rollbackFailed v` for
"failed to rollback migration v: ...". -/
inductive MigError where
  | invalidVersion
  | migrationNotFound (version : Int)
  | applyFailed (version : Int)
  | rollbackFailed (version : Int)
  deriving Repr, DecidableEq

/-- Observable actions of one orchestrator operation: the Storage calls
it makes and every non-empty statement it hands to `tx.Run`. -/
inductive Event where
  | initCall
  | getAppliedCall
  | runStatement (stmt : String)
  | recordCall (version : Int)
  | removeCall (version : Int)
  deriving Repr, DecidableEq

instance decEqExcept {ε α : Type} [DecidableEq ε] [DecidableEq α] :
    DecidableEq (Except ε α) := fun a b =>
  match a, b with
  | .ok x, .ok y =>
    if h : x = y then isTrue (by rw [h]) else isFalse (fun hh => h (by cases hh; rfl))
  | .error e, .error f =>
    if h : e = f then isTrue (by rw [h]) else isFalse (fun hh => h (by cases hh; rfl))
  | .ok _, .error _ => isFalse (fun h => Except.noConfusion h)
  | .error _, .ok _ => isFalse (fun h => Except.noConfusion h)

/-- Result of one orchestrator operation: the returned error (if any),
the storage contents afterwards, and the chronological event trace. -/
structure OpResult where
  res : Except MigError Unit
  applied : List MigrationRecord
  events : List Event
  deriving Repr, DecidableEq

/-- Split a character list at every occurrence of a separator character
(the semantics of Go's `strings.Split` with a one-character separator,
and of Lean's `String.splitOn`, which the kernel cannot evaluate). -/
def splitOnChar (sep : Char) : List Char → List (List Char)
  | [] => [[]]
  | c :: cs =>
    if c = sep then [] :: splitOnChar sep cs
    else
      match splitOnChar sep cs with
      | [] => [[c]]
      | t :: ts => (c :: t) :: ts

/-- A character list starts with the given segment. -/
def charsHaveStart : List Char → List Char → Bool
  | [], _ => true
  | _ :: _, [] => false
  | a :: p, c :: cs => a == c && charsHaveStart p cs

/-- A character list ends with the given segment. -/
def charsHaveEnd (suf cs : List Char) : Bool :=
  charsHaveStart suf.reverse cs.reverse

/-- Leading/trailing-whitespace trim on characters (Go's
`strings.TrimSpace`; `Char.isWhitespace` covers the space, tab, newline
and carriage-return characters that occur in migration files). -/
def trimChars (cs : List Char) : List Char :=
  ((cs.dropWhile Char.isWhitespace).reverse.dropWhile Char.isWhitespace).reverse

/-- `strings.TrimSpace` on strings, via `trimChars`. -/
def strTrim (s : String) : String :=
  String.mk (trimChars s.data)

/-- `splitStatements` (migrator.go): split a script on `;`. -/
def splitStatements (sql : String) : List String :=
  (splitOnChar ';' sql.data).map String.mk

/-- The statement loop inside `executeMigration`'s transaction function:
trim each statement, skip empty ones, run the rest in order, aborting on
the first failure.  Returns overall success and the list of non-empty
trimmed statements actually handed to `tx.Run` (including a failing
one). -/
def execStatements (run : String → Bool) : List String → Bool × List String
  | [] => (true, [])
  | stmt :: rest =>
    let s := strTrim stmt
    if s = "" then execStatements run rest
    else if run s then
      let r := execStatements run rest
      (r.1, s :: r.2)
    else (false, [s])

/-- `executeMigration` (migrator.go:262-293): a nil driver is an
unconditional no-op success; otherwise split the script and run all
non-empty trimmed statements in one transaction. -/
def executeMigration (driverNil : Bool) (run : String → Bool) (sql : String) :
    Bool × List String :=
  if driverNil then (true, [])
  else execStatements run (splitStatements sql)

/-- The trace of `tx.Run` events produced by one `executeMigration`. -/
def execEvents (driverNil : Bool) (run : String → Bool) (sql : String) : List Event :=
  (executeMigration driverNil run sql).2.map Event.runStatement

/-- The `appliedVersions` set (`map[int]bool`) built from a record list. -/
def hasVersion (applied : List MigrationRecord) (v : Int) : Bool :=
  applied.any fun r => r.version = v

/-- The record `storage.RecordMigration` persists for a migration
(neo4j_storage.go: version, name, `datetime()` now, checksum). -/
def mkRecord (now : Nat) (mig : Migration) : MigrationRecord :=
  { version := mig.version, name := mig.name, appliedAt := now, checksum := mig.checksum }

/-- `storage.RemoveMigration`: delete every record with the version. -/
def removeVersion (applied : List MigrationRecord) (v : Int) : List MigrationRecord :=
  applied.filter fun r => r.version ≠ v

/-- The migration loop of `Up` (migrator.go:53-70).  `skip` is the
`appliedVersions` snapshot set; the storage state is threaded through.
Returns the result, the final storage state and the trace. -/
def upLoop (dn : Bool) (run : String → Bool) (now : Nat) (skip : Int → Bool) :
    List Migration → List MigrationRecord →
    Except MigError Unit × List MigrationRecord × List Event
  | [], st => (.ok (), st, [])
  | mig :: rest, st =>
    if skip mig.version then upLoop dn run now skip rest st
    else
      let e := executeMigration dn run mig.upSQL
      if e.1 then
        let r := upLoop dn run now skip rest (st ++ [mkRecord now mig])
        (r.1, r.2.1,
          e.2.map Event.runStatement ++ Event.recordCall mig.version :: r.2.2)
      else
        (.error (.applyFailed mig.version), st, e.2.map Event.runStatement)

/-- `Up` (migrator.go:38-73): Init, read applied records, build the
version set, run the loop over the declared (sorted) sequence. -/
def up (dn : Bool) (run : String → Bool) (now : Nat)
    (migs : List Migration) (applied : List MigrationRecord) : OpResult :=
  let r := upLoop dn run now (hasVersion applied) migs applied
  ⟨r.1, r.2.1, Event.initCall :: Event.getAppliedCall :: r.2.2⟩

/-- The migration loop of `UpTo` (migrator.go:135-156): identical to the
`Up` loop except that it breaks as soon as a declared version exceeds
the target. -/
def upToLoop (dn : Bool) (run : String → Bool) (now : Nat) (skip : Int → Bool)
    (target : Int) :
    List Migration → List MigrationRecord →
    Except MigError Unit × List MigrationRecord × List Event
  | [], st => (.ok (), st, [])
  | mig :: rest, st =>
    if target < mig.version then (.ok (), st, [])
    else if skip mig.version then upToLoop dn run now skip target rest st
    else
      let e := executeMigration dn run mig.upSQL
      if e.1 then
        let r := upToLoop dn run now skip target rest (st ++ [mkRecord now mig])
        (r.1, r.2.1,
          e.2.map Event.runStatement ++ Event.recordCall mig.version :: r.2.2)
      else
        (.error (.applyFailed mig.version), st, e.2.map Event.runStatement)

/-- `UpTo` (migrator.go:116-159).  Note the source calls `storage.Init`
*before* the negative-target check, so a negative target still produces
an `initCall` event. -/
def upTo (dn : Bool) (run : String → Bool) (now : Nat)
    (migs : List Migration) (applied : List MigrationRecord) (target : Int) : OpResult :=
  if target < 0 then ⟨.error .invalidVersion, applied, [Event.initCall]⟩
  else
    let r := upToLoop dn run now (hasVersion applied) target migs applied
    ⟨r.1, r.2.1, Event.initCall :: Event.getAppliedCall :: r.2.2⟩

/-- The first-match lookup of a declared migration by version
(migrator.go:182-188). -/
def findMigration (migs : List Migration) (v : Int) : Option Migration :=
  migs.find? fun mg => mg.version = v

/-- The rollback loop of `DownTo` (migrator.go:175-205): iterate the
*snapshot* of applied records from the last element backwards (the first
argument is that snapshot already reversed), breaking at the first
record with version `<= target`; each step locates the declared
migration, executes its reverse script and removes its record. -/
def downToLoop (dn : Bool) (run : String → Bool) (migs : List Migration)
    (target : Int) :
    List MigrationRecord → List MigrationRecord →
    Except MigError Unit × List MigrationRecord × List Event
  | [], st => (.ok (), st, [])
  | record :: restRev, st =>
    if record.version ≤ target then (.ok (), st, [])
    else
      match findMigration migs record.version with
      | none => (.error (.migrationNotFound record.version), st, [])
      | some tm =>
        let e := executeMigration dn run tm.downSQL
        if e.1 then
          let r := downToLoop dn run migs target restRev (removeVersion st record.version)
          (r.1, r.2.1,
            e.2.map Event.runStatement ++ Event.removeCall record.version :: r.2.2)
        else
          (.error (.rollbackFailed record.version), st, e.2.map Event.runStatement)

/-- `DownTo` (migrator.go:161-208).  As in `UpTo`, `storage.Init` runs
before the negative-target check. -/
def downTo (dn : Bool) (run : String → Bool)
    (migs : List Migration) (applied : List MigrationRecord) (target : Int) : OpResult :=
  if target < 0 then ⟨.error .invalidVersion, applied, [Event.initCall]⟩
  else
    let r := downToLoop dn run migs target applied.reverse applied
    ⟨r.1, r.2.1, Event.initCall :: Event.getAppliedCall :: r.2.2⟩

/-- The `appliedMap` lookup of `Status` (migrator.go:220-223): the Go
map is filled in list order, so for duplicate versions the *last* record
wins. -/
def lookupRecord (applied : List MigrationRecord) (v : Int) : Option MigrationRecord :=
  applied.reverse.find? fun r => r.version = v

/-- The row-building loop of `Status` (migrator.go:226-245).  Returns
the status rows together with the versions for which a
"checksum mismatch" warning is logged. -/
def statusLoop (applied : List MigrationRecord) :
    List Migration → List MigrationStatus × List Int
  | [] => ([], [])
  | mig :: rest =>
    let r := statusLoop applied rest
    match lookupRecord applied mig.version with
    | none =>
      (⟨mig.version, mig.name, false, none, mig.checksum⟩ :: r.1, r.2)
    | some record =>
      (⟨mig.version, mig.name, true, some record.appliedAt, mig.checksum⟩ :: r.1,
        if record.checksum ≠ mig.checksum then mig.version :: r.2 else r.2)

/-- `Status` (migrator.go:210-248): after Init and the applied-records
read succeed it always returns the rows (`statuses, nil`); checksum
mismatches only add warnings.  First component: the returned value;
second: the warned versions. -/
def status (migs : List Migration) (applied : List MigrationRecord) :
    Except MigError (List MigrationStatus) × List Int :=
  let r := statusLoop applied migs
  (.ok r.1, r.2)

/-! ### Parser (parser.go) -/

/-- One entry of the migrations directory as `fs.ReadDir` lists it.  The
file content is carried with the entry (the model filesystem reads
listed files without error). -/
structure DirEntry where
  name : String
  isDir : Bool
  content : String
  deriving Repr, DecidableEq

/-- Errors of `splitUpDown` (`ErrNoUpStatement` / `ErrNoDownStatement`). -/
inductive SplitErr where
  | noUpStatement
  | noDownStatement
  deriving Repr, DecidableEq

/-- Errors of `parseMigrations`: a file failing to parse (with the
filename attached by `fmt.Errorf("failed to parse migration %s: %w")`),
or `ErrNoMigrations`. -/
inductive ParseErr where
  | fileFailed (filename : String) (e : SplitErr)
  | noMigrations
  deriving Repr, DecidableEq

/-- `upMarker` constant. -/
def upMarker : String := "-- +neo4go Up"

/-- `downMarker` constant. -/
def downMarker : String := "-- +neo4go Down"

/-- `ScanLines` strips one trailing carriage return from a line. -/
def dropCR (l : List Char) : List Char :=
  if l.getLast? = some '\r' then l.dropLast else l

/-- The tokens produced by `bufio.Scanner` with `ScanLines`: lines
without their terminator, a trailing newline producing no extra empty
token, and a trailing carriage return stripped from each line. -/
def scanLines (content : String) : List String :=
  if content.data.isEmpty then []
  else
    let parts := splitOnChar '\n' content.data
    let parts := if parts.getLast? = some [] then parts.dropLast else parts
    parts.map fun l => String.mk (dropCR l)

/-- The accumulation loop of `splitUpDown` (parser.go:108-129): marker
lines switch the current section, other lines (with a newline appended)
go to the accumulator of the current section; lines before any marker
are discarded. -/
def splitLoop : List String → String → String → String → String × String
  | [], _, upAcc, downAcc => (upAcc, downAcc)
  | line :: rest, cur, upAcc, downAcc =>
    if charsHaveStart upMarker.data line.data then splitLoop rest "up" upAcc downAcc
    else if charsHaveStart downMarker.data line.data then splitLoop rest "down" upAcc downAcc
    else if cur = "up" then splitLoop rest cur (upAcc ++ line ++ "\n") downAcc
    else if cur = "down" then splitLoop rest cur upAcc (downAcc ++ line ++ "\n")
    else splitLoop rest cur upAcc downAcc

/-- The raw (untrimmed) up/down sections a file's content accumulates. -/
def sectionsOf (content : String) : String × String :=
  splitLoop (scanLines content) "" "" ""

/-- `splitUpDown` (parser.go:103-147): accumulate the two sections, trim
both, fail with `noUpStatement` if the trimmed up section is empty, then
with `noDownStatement` if the trimmed down section is empty. -/
def splitUpDown (content : String) : Except SplitErr (String × String) :=
  let s := sectionsOf content
  let upStr := strTrim s.1
  let downStr := strTrim s.2
  if upStr = "" then .error .noUpStatement
  else if downStr = "" then .error .noDownStatement
  else .ok (upStr, downStr)

/-- Digit-string value, as `strconv.Atoi` computes it (overflow, which
makes `Atoi` fail and the entry be skipped, is not modelled: `Int` is
unbounded). -/
def digitsToInt (ds : List Char) : Int :=
  (ds.foldl (fun n c => 10 * n + (c.toNat - '0'.toNat)) 0 : Nat)

/-- The filename pattern `^(\d+)_(.+)\.cypher$` (parser.go:21) together
with the `Atoi` of the first group: returns the version and the name
part.  Maximal-munch on the leading digits is the only way the regex can
match (the character after a shorter digit run is a digit, not an
underscore), and the greedy `(.+)` ends exactly before the final
`.cypher` suffix. -/
def matchMigrationName (filename : String) : Option (Int × String) :=
  let cs := filename.data
  let ds := cs.takeWhile Char.isDigit
  if ds.isEmpty then none
  else
    match cs.drop ds.length with
    | '_' :: tail =>
      if charsHaveEnd ".cypher".data tail ∧ 7 < tail.length then
        some (digitsToInt ds, String.mk (tail.take (tail.length - 7)))
      else none
    | _ => none

/-- `parseMigrationFile` (parser.go:75-101): split the content, compute
the checksum over the raw file bytes.  `chk` abstracts the SHA-256 hex
digest (an external crypto primitive). -/
def parseMigrationFile (chk : String → String) (version : Int) (name : String)
    (content : String) : Except SplitErr Migration :=
  match splitUpDown content with
  | .error e => .error e
  | .ok s => .ok ⟨version, name, s.1, s.2, chk content⟩

/-- The collection loop of `parseMigrations` (parser.go:38-62): skip
directories and non-matching or non-numeric names, parse each matching
file, aborting on the first failing file with its name attached. -/
def parseLoop (chk : String → String) : List DirEntry → Except ParseErr (List Migration)
  | [] => .ok []
  | entry :: rest =>
    if entry.isDir then parseLoop chk rest
    else
      match matchMigrationName entry.name with
      | none => parseLoop chk rest
      | some vn =>
        match parseMigrationFile chk vn.1 vn.2 entry.content with
        | .error e => .error (.fileFailed entry.name e)
        | .ok mig =>
          match parseLoop chk rest with
          | .error e => .error e
          | .ok migs => .ok (mig :: migs)

/-- Insertion of a migration into a version-sorted list, keeping it
sorted ascending by version. -/
def insertMig (a : Migration) : List Migration → List Migration
  | [] => [a]
  | b :: l => if a.version ≤ b.version then a :: b :: l else b :: insertMig a l

/-- The `sort.Slice(migrations, version <)` call (parser.go:68-70),
modelled as insertion sort: a permutation of the input that is sorted
nondecreasing by version (Go's `sort.Slice` is specified only up to the
order of equal-version ties). -/
def sortByVersion : List Migration → List Migration
  | [] => []
  | a :: l => insertMig a (sortByVersion l)

/-- `parseMigrations` (parser.go:31-73): collect, fail with
`noMigrations` if nothing parsed, sort ascending by version. -/
def parseMigrations (chk : String → String) (entries : List DirEntry) :
    Except ParseErr (List Migration) :=
  match parseLoop chk entries with
  | .error e => .error e
  | .ok migs => if migs.isEmpty then .error .noMigrations else .ok (sortByVersion migs)

/-! ### Configuration (migrate.go) -/

/-- `Config` (migrate.go:12-20).  `hasMigrationsFS` models whether the
`MigrationsFS fs.FS` field is non-nil. -/
structure Config where
  uri : String
  username : String
  password : String
  database : String
  migrationsDir : String
  hasMigrationsFS : Bool
  deriving Repr, DecidableEq

/-- The `ErrInvalidConfig` wrappers `validateConfig` produces, carrying
the message appended to "invalid configuration". -/
inductive ConfigErr where
  | invalidConfig (msg : String)
  deriving Repr, DecidableEq

/-- `validateConfig` (migrate.go:78-96): a pure check, in source order. -/
def validateConfig (cfg : Config) : Option ConfigErr :=
  if cfg.uri = "" then some (.invalidConfig "URI is required")
  else if cfg.username = "" then some (.invalidConfig "Username is required")
  else if cfg.password = "" then some (.invalidConfig "Password is required")
  else if cfg.migrationsDir = "" ∧ cfg.hasMigrationsFS = false then
    some (.invalidConfig "either MigrationsDir or MigrationsFS must be provided")
  else none

/-- The I/O actions of `New`'s connection phase (migrate.go:27-38). -/
inductive NewEvent where
  | connectDriver
  | verifyConnectivity
  deriving Repr, DecidableEq

/-- The validation-then-connect phase of `New` (migrate.go:22-41): the
config is validated first; only when validation passes does any I/O
(driver construction, connectivity check) happen.  Models just this
phase — the rest of `New` follows the connectivity check. -/
def newValidationPhase (cfg : Config) : Except ConfigErr Unit × List NewEvent :=
  match validateConfig cfg with
  | some e => (.error e, [])
  | none => (.ok (), [NewEvent.connectDriver, NewEvent.verifyConnectivity])

/-! ### Derived definitions used in the statements below -/

/-- The trace one rollback step produces for an applied record: the
statement runs of the matching declared migration's reverse script,
followed by the record's removal. -/
def rollbackEvents (dn : Bool) (run : String → Bool) (migs : List Migration)
    (r : MigrationRecord) : List Event :=
  match findMigration migs r.version with
  | some tm => execEvents dn run tm.downSQL ++ [Event.removeCall r.version]
  | none => []

/-- Success of one rollback step for an applied record: the declared
migration exists and its reverse script executes successfully. -/
def rollbackOk (dn : Bool) (run : String → Bool) (migs : List Migration)
    (r : MigrationRecord) : Bool :=
  match findMigration migs r.version with
  | some tm => (executeMigration dn run tm.downSQL).1
  | none => false

/-- Removal of a batch of versions from the storage state. -/
def removeVersions (st : List MigrationRecord) (vs : List Int) : List MigrationRecord :=
  st.filter fun r => !vs.contains r.version

/-- The status row `Status` builds for one declared migration. -/
def statusRow (applied : List MigrationRecord) (mig : Migration) : MigrationStatus :=
  match lookupRecord applied mig.version with
  | none => ⟨mig.version, mig.name, false, none, mig.checksum⟩
  | some record => ⟨mig.version, mig.name, true, some record.appliedAt, mig.checksum⟩

/-- Whether `Status` logs a "checksum mismatch" warning for a declared
migration: it is applied and the stored checksum differs. -/
def checksumMismatch (applied : List MigrationRecord) (mig : Migration) : Bool :=
  match lookupRecord applied mig.version with
  | none => false
  | some record => record.checksum ≠ mig.checksum

/-! ### Concrete sample data for the closed instances below -/

/-- A well-formed migration-file body. -/
def contentSample : String :=
  "-- +neo4go Up\nCREATE (n);\n-- +neo4go Down\nMATCH (n) DELETE n;\n"

/-- A file body with an Up section only. -/
def contentOnlyUp : String := "-- +neo4go Up\nCREATE (n);\n"

/-- A file body with a Down section only. -/
def contentOnlyDown : String := "-- +neo4go Down\nMATCH (n) DELETE n;\n"

def sampleMig1 : Migration := ⟨1, "first", "CREATE (a);", "MATCH (a) DELETE a;", "c1"⟩

def sampleMig2 : Migration := ⟨2, "second", "CREATE (b);", "MATCH (b) DELETE b;", "c2"⟩

def sampleMig3 : Migration := ⟨3, "third", "CREATE (c);", "MATCH (c) DELETE c;", "c3"⟩

def sampleRec1 : MigrationRecord := ⟨1, "first", 11, "c1"⟩

def sampleRec2 : MigrationRecord := ⟨2, "second", 12, "c2"⟩

def sampleRec3 : MigrationRecord := ⟨3, "third", 13, "c3"⟩

/-- A database in which every statement succeeds. -/
def alwaysOk : String → Bool := fun _ => true

/-- A database in which the statement `CREATE (b)` (the forward script
of `sampleMig2`) fails and every other statement succeeds. -/
def failsOnB : String → Bool := fun s => !(s == "CREATE (b)")

/-! ### Basic facts about script execution and the Up loop -/

theorem executeMigration_nilDriver (run : String → Bool) (sql : String) :
    executeMigration true run sql = (true, []) := rfl

theorem execEvents_nilDriver (run : String → Bool) (sql : String) :
    execEvents true run sql = [] := rfl

theorem hasVersion_nil (v : Int) : hasVersion [] v = false := rfl

theorem hasVersion_append (l l' : List MigrationRecord) (v : Int) :
    hasVersion (l ++ l') v = (hasVersion l v || hasVersion l' v) := by
  simp [hasVersion, List.any_append]

theorem upLoop_cons_skip {skip : Int → Bool} {mig : Migration}
    (dn : Bool) (run : String → Bool) (now : Nat) (rest : List Migration)
    (st : List MigrationRecord) (h : skip mig.version = true) :
    upLoop dn run now skip (mig :: rest) st = upLoop dn run now skip rest st := by
  simp [upLoop, h]

theorem upLoop_cons_exec {skip : Int → Bool} {mig : Migration}
    (dn : Bool) (run : String → Bool) (now : Nat) (rest : List Migration)
    (st : List MigrationRecord) (h : skip mig.version = false) :
    upLoop dn run now skip (mig :: rest) st =
      if (executeMigration dn run mig.upSQL).1 then
        ((upLoop dn run now skip rest (st ++ [mkRecord now mig])).1,
          (upLoop dn run now skip rest (st ++ [mkRecord now mig])).2.1,
          execEvents dn run mig.upSQL ++
            Event.recordCall mig.version ::
              (upLoop dn run now skip rest (st ++ [mkRecord now mig])).2.2)
      else
        (.error (.applyFailed mig.version), st, execEvents dn run mig.upSQL) := by
  simp [upLoop, h, execEvents]

/-- When every non-skipped migration's forward script succeeds, the `Up`
loop succeeds, appends one record per non-skipped migration in sequence
order, and its trace is the concatenation of each non-skipped
migration's statement runs followed by its record call. -/
theorem upLoop_spec (dn : Bool) (run : String → Bool) (now : Nat) (skip : Int → Bool) :
    ∀ (migs : List Migration) (st : List MigrationRecord),
    (∀ mg ∈ migs, skip mg.version = false → (executeMigration dn run mg.upSQL).1 = true) →
    upLoop dn run now skip migs st =
      (.ok (), st ++ ((migs.filter fun mg => !skip mg.version).map (mkRecord now)),
        (migs.filter fun mg => !skip mg.version).flatMap fun mg =>
          execEvents dn run mg.upSQL ++ [Event.recordCall mg.version]) := by
  intro migs
  induction migs with
  | nil => intro st _; simp [upLoop]
  | cons mig rest ih =>
    intro st h
    cases hskip : skip mig.version with
    | true =>
      rw [upLoop_cons_skip dn run now rest st hskip]
      rw [ih st fun mg hmg => h mg (List.mem_cons_of_mem _ hmg)]
      simp [List.filter_cons, hskip]
    | false =>
      rw [upLoop_cons_exec dn run now rest st hskip]
      rw [h mig (List.mem_cons_self _ _) hskip]
      rw [ih (st ++ [mkRecord now mig]) fun mg hmg => h mg (List.mem_cons_of_mem _ hmg)]
      simp [List.filter_cons, hskip]

/-- The `Up` loop only ever appends records: every record present at the
start is present in the final state, whatever the outcome. -/
theorem upLoop_mono (dn : Bool) (run : String → Bool) (now : Nat) (skip : Int → Bool) :
    ∀ (migs : List Migration) (st : List MigrationRecord) (r : MigrationRecord),
    r ∈ st → r ∈ (upLoop dn run now skip migs st).2.1 := by
  intro migs
  induction migs with
  | nil => intro st r hr; simpa [upLoop] using hr
  | cons mig rest ih =>
    intro st r hr
    cases hskip : skip mig.version with
    | true => rw [upLoop_cons_skip dn run now rest st hskip]; exact ih st r hr
    | false =>
      rw [upLoop_cons_exec dn run now rest st hskip]
      cases he : (executeMigration dn run mig.upSQL).1 with
      | true =>
        simp only [if_pos rfl, he, if_true]
        exact ih (st ++ [mkRecord now mig]) r (List.mem_append_left _ hr)
      | false => simpa [he] using hr

/-- A successful `Up` loop leaves every processed migration's version in
the final state, provided skipped versions were present initially. -/
theorem upLoop_ok_covers (dn : Bool) (run : String → Bool) (now : Nat) (skip : Int → Bool) :
    ∀ (migs : List Migration) (st : List MigrationRecord),
    (upLoop dn run now skip migs st).1 = .ok () →
    (∀ v, skip v = true → hasVersion st v = true) →
    ∀ mg ∈ migs, hasVersion (upLoop dn run now skip migs st).2.1 mg.version = true := by
  intro migs
  induction migs with
  | nil => intro st _ _ mg hmg; cases hmg
  | cons mig rest ih =>
    intro st hok hsk mg hmg
    cases hskip : skip mig.version with
    | true =>
      rw [upLoop_cons_skip dn run now rest st hskip] at hok ⊢
      rcases List.mem_cons.mp hmg with hmg | hmg
      · rw [hmg]
        have hst := hsk mig.version hskip
        rcases (List.any_eq_true).mp hst with ⟨r, hr, hrv⟩
        exact (List.any_eq_true).mpr
          ⟨r, upLoop_mono dn run now skip rest st r hr, hrv⟩
      · exact ih st hok hsk mg hmg
    | false =>
      rw [upLoop_cons_exec dn run now rest st hskip] at hok ⊢
      cases he : (executeMigration dn run mig.upSQL).1 with
      | false => simp [he] at hok
      | true =>
        simp only [he, if_true] at hok ⊢
        rcases List.mem_cons.mp hmg with hmg | hmg
        · rw [hmg]
          have hmem : mkRecord now mig ∈ st ++ [mkRecord now mig] :=
            List.mem_append_right _ (List.mem_singleton.mpr rfl)
          exact (List.any_eq_true).mpr
            ⟨mkRecord now mig,
              upLoop_mono dn run now skip rest (st ++ [mkRecord now mig]) _ hmem,
              by simp [mkRecord]⟩
        · refine ih (st ++ [mkRecord now mig]) hok ?_ mg hmg
          intro v hv
          rw [hasVersion_append]
          exact Or.inl (hsk v hv) |> Bool.or_eq_true_iff.mpr

/-- When every migration is already applied, the `Up` loop does nothing:
success, unchanged state, empty trace. -/
theorem upLoop_all_skip (dn : Bool) (run : String → Bool) (now : Nat) (skip : Int → Bool) :
    ∀ (migs : List Migration) (st : List MigrationRecord),
    (∀ mg ∈ migs, skip mg.version = true) →
    upLoop dn run now skip migs st = (.ok (), st, []) := by
  intro migs
  induction migs with
  | nil => intro st _; simp [upLoop]
  | cons mig rest ih =>
    intro st h
    rw [upLoop_cons_skip dn run now rest st (h mig (List.mem_cons_self _ _))]
    exact ih st fun mg hmg => h mg (List.mem_cons_of_mem _ hmg)

/-- Splitting the `Up` loop at a list append: the second half runs only
if the first half succeeded, from its final state. -/
theorem upLoop_append (dn : Bool) (run : String → Bool) (now : Nat) (skip : Int → Bool) :
    ∀ (xs ys : List Migration) (st : List MigrationRecord),
    upLoop dn run now skip (xs ++ ys) st =
      match upLoop dn run now skip xs st with
      | (.ok _, st₁, evs₁) =>
        ((upLoop dn run now skip ys st₁).1, (upLoop dn run now skip ys st₁).2.1,
          evs₁ ++ (upLoop dn run now skip ys st₁).2.2)
      | (.error e, st₁, evs₁) => (.error e, st₁, evs₁) := by
  intro xs
  induction xs with
  | nil => intro ys st; simp [upLoop]
  | cons mig rest ih =>
    intro ys st
    cases hskip : skip mig.version with
    | true =>
      rw [List.cons_append, upLoop_cons_skip dn run now (rest ++ ys) st hskip,
        upLoop_cons_skip dn run now rest st hskip]
      exact ih ys st
    | false =>
      rw [List.cons_append, upLoop_cons_exec dn run now (rest ++ ys) st hskip,
        upLoop_cons_exec dn run now rest st hskip]
      cases he : (executeMigration dn run mig.upSQL).1 with
      | false => simp [he]
      | true =>
        simp only [he, if_true]
        rw [ih ys (st ++ [mkRecord now mig])]
        cases hrec : upLoop dn run now skip rest (st ++ [mkRecord now mig]) with
        | mk r₁ s₁ =>
          cases r₁ with
          | ok u => cases u; simp
          | error e => simp

/-! ### Facts about the UpTo loop -/

theorem upToLoop_cons_break {target : Int} {mig : Migration}
    (dn : Bool) (run : String → Bool) (now : Nat) (skip : Int → Bool)
    (rest : List Migration) (st : List MigrationRecord) (h : target < mig.version) :
    upToLoop dn run now skip target (mig :: rest) st = (.ok (), st, []) := by
  simp [upToLoop, h]

theorem upToLoop_cons_le {target : Int} {mig : Migration}
    (dn : Bool) (run : String → Bool) (now : Nat) (skip : Int → Bool)
    (rest : List Migration) (st : List MigrationRecord) (h : mig.version ≤ target) :
    upToLoop dn run now skip target (mig :: rest) st =
      if skip mig.version then upToLoop dn run now skip target rest st
      else if (executeMigration dn run mig.upSQL).1 then
        ((upToLoop dn run now skip target rest (st ++ [mkRecord now mig])).1,
          (upToLoop dn run now skip target rest (st ++ [mkRecord now mig])).2.1,
          execEvents dn run mig.upSQL ++
            Event.recordCall mig.version ::
              (upToLoop dn run now skip target rest (st ++ [mkRecord now mig])).2.2)
      else
        (.error (.applyFailed mig.version), st, execEvents dn run mig.upSQL) := by
  have h' : ¬ target < mig.version := not_lt.mpr h
  simp [upToLoop, h', execEvents]

/-- The `UpTo` loop is the `Up` loop restricted to the longest prefix of
declared migrations with version `<= target` (the loop breaks at the
first declared version above the target). -/
theorem upToLoop_eq_upLoop (dn : Bool) (run : String → Bool) (now : Nat)
    (skip : Int → Bool) (target : Int) :
    ∀ (migs : List Migration) (st : List MigrationRecord),
    upToLoop dn run now skip target migs st =
      upLoop dn run now skip (migs.takeWhile fun mg => decide (mg.version ≤ target)) st := by
  intro migs
  induction migs with
  | nil => intro st; simp [upToLoop, upLoop]
  | cons mig rest ih =>
    intro st
    by_cases ht : target < mig.version
    · have hd : (decide (mig.version ≤ target)) = false := by
        simp only [decide_eq_false_iff_not]; omega
      rw [upToLoop_cons_break dn run now skip rest st ht]
      rw [List.takeWhile_cons, hd]
      simp [upLoop]
    · have hle : mig.version ≤ target := by omega
      have hd : (decide (mig.version ≤ target)) = true := by
        simp only [decide_eq_true_eq]; omega
      rw [upToLoop_cons_le dn run now skip rest st hle]
      rw [List.takeWhile_cons, hd]
      simp only [if_true]
      cases hskip : skip mig.version with
      | true => rw [upLoop_cons_skip dn run now _ st hskip]; exact ih st
      | false =>
        rw [upLoop_cons_exec dn run now _ st hskip]
        cases he : (executeMigration dn run mig.upSQL).1 with
        | false => simp [he]
        | true =>
          simp only [he, if_true]
          rw [ih (st ++ [mkRecord now mig])]
          simp

/-- On a version-sorted declared sequence, stopping at the first version
above the target keeps exactly the migrations with version at most the
target. -/
theorem takeWhile_le_eq_filter (target : Int) :
    ∀ (migs : List Migration), (migs.Pairwise fun a b => a.version ≤ b.version) →
    (migs.takeWhile fun mg => decide (mg.version ≤ target)) =
      migs.filter fun mg => decide (mg.version ≤ target) := by
  intro migs
  induction migs with
  | nil => intro _; rfl
  | cons mig rest ih =>
    intro h
    rcases List.pairwise_cons.mp h with ⟨hall, hrest⟩
    by_cases hle : mig.version ≤ target
    · have hd : (decide (mig.version ≤ target)) = true := by
        simp only [decide_eq_true_eq]; omega
      rw [List.takeWhile_cons, List.filter_cons, hd]
      simp only [if_true, cond_true]
      rw [ih hrest]
    · have hd : (decide (mig.version ≤ target)) = false := by
        simp only [decide_eq_false_iff_not]; omega
      have hfil : (rest.filter fun mg => decide (mg.version ≤ target)) = [] := by
        rw [List.filter_eq_nil_iff]
        intro mg hmg
        have := hall mg hmg
        simp only [decide_eq_true_eq]
        omega
      rw [List.takeWhile_cons, List.filter_cons, hd]
      simp [hfil]

/-! ### Facts about the DownTo loop -/

theorem removeVersions_nil (st : List MigrationRecord) : removeVersions st [] = st := by
  simp [removeVersions]

theorem removeVersion_removeVersions (st : List MigrationRecord) (v : Int) (vs : List Int) :
    removeVersions (removeVersion st v) vs = removeVersions st (v :: vs) := by
  unfold removeVersions removeVersion
  rw [List.filter_filter]
  apply List.filter_congr
  intro r _
  cases hv : (r.version == v) with
  | true =>
    have : r.version = v := by exact_mod_cast (beq_iff_eq).mp hv
    simp [List.contains_cons, hv, this]
  | false =>
    have : r.version ≠ v := by
      intro h; rw [h] at hv; simp at hv
    simp [List.contains_cons, hv, this]

theorem downToLoop_cons_break {target : Int} {record : MigrationRecord}
    (dn : Bool) (run : String → Bool) (migs : List Migration)
    (restRev st : List MigrationRecord) (h : record.version ≤ target) :
    downToLoop dn run migs target (record :: restRev) st = (.ok (), st, []) := by
  simp [downToLoop, h]

theorem downToLoop_cons_roll {target : Int} {record : MigrationRecord} {tm : Migration}
    (dn : Bool) (run : String → Bool) (migs : List Migration)
    (restRev st : List MigrationRecord) (h : target < record.version)
    (hfind : findMigration migs record.version = some tm)
    (hexec : (executeMigration dn run tm.downSQL).1 = true) :
    downToLoop dn run migs target (record :: restRev) st =
      ((downToLoop dn run migs target restRev (removeVersion st record.version)).1,
        (downToLoop dn run migs target restRev (removeVersion st record.version)).2.1,
        execEvents dn run tm.downSQL ++
          Event.removeCall record.version ::
            (downToLoop dn run migs target restRev (removeVersion st record.version)).2.2) := by
  have h' : ¬ record.version ≤ target := not_le.mpr h
  simp [downToLoop, h', hfind, hexec, execEvents]

/-- Main invariant of the rollback loop: on a version-descending
snapshot whose every above-target record can be rolled back, the loop
succeeds, removes exactly the above-target versions from the state, and
its trace is one rollback-step trace per above-target record, in
snapshot (descending) order. -/
theorem downToLoop_spec (dn : Bool) (run : String → Bool) (migs : List Migration)
    (target : Int) :
    ∀ (rev st : List MigrationRecord),
    (rev.Pairwise fun a b => b.version ≤ a.version) →
    (∀ r ∈ rev, target < r.version → rollbackOk dn run migs r = true) →
    downToLoop dn run migs target rev st =
      (.ok (),
        removeVersions st ((rev.filter fun r => decide (target < r.version)).map (·.version)),
        (rev.filter fun r => decide (target < r.version)).flatMap
          (rollbackEvents dn run migs)) := by
  intro rev
  induction rev with
  | nil => intro st _ _; simp [downToLoop, removeVersions_nil]
  | cons record restRev ih =>
    intro st hsorted hok
    rcases List.pairwise_cons.mp hsorted with ⟨hall, hrest⟩
    by_cases hle : record.version ≤ target
    · have hd : (decide (target < record.version)) = false := by
        simp only [decide_eq_false_iff_not]; omega
      have hfil : (restRev.filter fun r => decide (target < r.version)) = [] := by
        rw [List.filter_eq_nil_iff]
        intro r hr
        have := hall r hr
        simp only [decide_eq_true_eq]
        omega
      rw [downToLoop_cons_break dn run migs restRev st hle]
      rw [List.filter_cons, hd]
      simp [hfil, removeVersions_nil]
    · have ht : target < record.version := by omega
      have hstep := hok record (List.mem_cons_self _ _) ht
      unfold rollbackOk at hstep
      cases hfind : findMigration migs record.version with
      | none => rw [hfind] at hstep; simp at hstep
      | some tm =>
        rw [hfind] at hstep
        rw [downToLoop_cons_roll dn run migs restRev st ht hfind hstep]
        rw [ih (removeVersion st record.version) hrest
          fun r hr hrt => hok r (List.mem_cons_of_mem _ hr) hrt]
        have hd : (decide (target < record.version)) = true := by
          simp only [decide_eq_true_eq]; omega
        rw [List.filter_cons, hd]
        simp only [cond_true, List.map_cons, List.flatMap_cons]
        rw [removeVersion_removeVersions]
        simp [rollbackEvents, hfind]

/-- For records drawn from the applied snapshot, membership of a version
in the removed batch is equivalent to that version exceeding the target,
so batch removal is the `version <= target` filter. -/
theorem removeVersions_eq_filter_le (applied : List MigrationRecord) (target : Int) :
    removeVersions applied
        ((applied.reverse.filter fun r => decide (target < r.version)).map (·.version)) =
      applied.filter fun r => decide (r.version ≤ target) := by
  unfold removeVersions
  apply List.filter_congr
  intro r hr
  by_cases h : target < r.version
  · have hmem : r.version ∈
        (applied.reverse.filter fun r => decide (target < r.version)).map (·.version) := by
      apply List.mem_map_of_mem
      rw [List.mem_filter]
      exact ⟨List.mem_reverse.mpr hr, by simp only [decide_eq_true_eq]; omega⟩
    have hc : ((applied.reverse.filter fun r => decide (target < r.version)).map
        (·.version)).contains r.version = true := by
      rw [List.contains_iff_exists_mem_beq]
      exact ⟨r.version, hmem, by simp⟩
    rw [hc]
    simp only [Bool.not_true]
    symm
    simp only [decide_eq_false_iff_not]
    omega
  · have hc : ((applied.reverse.filter fun r => decide (target < r.version)).map
        (·.version)).contains r.version = false := by
      rw [Bool.eq_false_iff]
      intro hcon
      rw [List.contains_iff_exists_mem_beq] at hcon
      rcases hcon with ⟨v, hv, hbeq⟩
      rcases List.mem_map.mp hv with ⟨s, hs, hsv⟩
      rcases List.mem_filter.mp hs with ⟨_, hst⟩
      have : r.version = v := by exact_mod_cast (beq_iff_eq).mp hbeq
      simp only [decide_eq_true_eq] at hst
      omega
    rw [hc]
    simp only [Bool.not_false]
    symm
    simp only [decide_eq_true_eq]
    omega

/-! ### Facts about the parser sort -/

theorem mem_insertMig (a b : Migration) :
    ∀ (l : List Migration), b ∈ insertMig a l ↔ b = a ∨ b ∈ l := by
  intro l
  induction l with
  | nil => simp [insertMig]
  | cons c l ih =>
    by_cases h : a.version ≤ c.version
    · simp [insertMig, h]
    · simp only [insertMig, if_neg h, List.mem_cons, ih]
      tauto

theorem insertMig_sorted (a : Migration) :
    ∀ (l : List Migration), (l.Pairwise fun x y => x.version ≤ y.version) →
    (insertMig a l).Pairwise fun x y => x.version ≤ y.version := by
  intro l
  induction l with
  | nil => intro _; simp [insertMig]
  | cons b l ih =>
    intro h
    rcases List.pairwise_cons.mp h with ⟨hall, hl⟩
    by_cases hab : a.version ≤ b.version
    · rw [insertMig, if_pos hab]
      refine List.pairwise_cons.mpr ⟨?_, h⟩
      intro c hc
      rcases List.mem_cons.mp hc with hc | hc
      · rw [hc]; exact hab
      · exact le_trans hab (hall c hc)
    · rw [insertMig, if_neg hab]
      refine List.pairwise_cons.mpr ⟨?_, ih hl⟩
      intro c hc
      rcases (mem_insertMig a c l).mp hc with hc | hc
      · rw [hc]; omega
      · exact hall c hc

theorem sortByVersion_sorted :
    ∀ (l : List Migration),
    (sortByVersion l).Pairwise fun x y => x.version ≤ y.version := by
  intro l
  induction l with
  | nil => simp [sortByVersion]
  | cons a l ih => exact insertMig_sorted a (sortByVersion l) ih

/-! ### Facts about Status -/

theorem statusLoop_eq (applied : List MigrationRecord) :
    ∀ (migs : List Migration),
    statusLoop applied migs =
      (migs.map (statusRow applied),
        (migs.filter (checksumMismatch applied)).map (·.version)) := by
  intro migs
  induction migs with
  | nil => rfl
  | cons mig rest ih =>
    rw [statusLoop, ih]
    cases hl : lookupRecord applied mig.version with
    | none =>
      simp only [List.map_cons, List.filter_cons, statusRow, checksumMismatch, hl]
      simp
    | some record =>
      by_cases hc : record.checksum = mig.checksum
      · simp [statusRow, checksumMismatch, hl, hc, List.filter_cons]
      · simp [statusRow, checksumMismatch, hl, hc, List.filter_cons]

theorem hasVersion_eq_lookup_isSome (applied : List MigrationRecord) (v : Int) :
    hasVersion applied v = (lookupRecord applied v).isSome := by
  unfold hasVersion lookupRecord
  cases hv : (applied.reverse.find? fun r => decide (r.version = v)) with
  | none =>
    rw [List.find?_eq_none] at hv
    simp only [Option.isSome_none]
    rw [Bool.eq_false_iff]
    intro hc
    rcases List.any_eq_true.mp hc with ⟨r, hr, hrv⟩
    exact absurd hrv (by simpa using hv r (List.mem_reverse.mpr hr))
  | some r =>
    have hr := List.find?_some hv
    have hmem := List.mem_reverse.mp (List.mem_of_find?_eq_some hv)
    simp only [Option.isSome_some]
    exact List.any_eq_true.mpr ⟨r, hmem, hr⟩

/-! ### Claim C10 -/

/-- **C10**: with a nil database driver handle, script execution is an
unconditional no-op success, so `Up()` on an empty applied-state records
every declared migration as applied — one record call per declared
migration, in order — without handing a single statement to the
database, and returns no error. -/
theorem c10_nilDriver_up_records_without_executing (run : String → Bool) (now : Nat)
    (migs : List Migration) :
    (∀ sql, executeMigration true run sql = (true, [])) ∧
    up true run now migs [] =
      ⟨.ok (), migs.map (mkRecord now),
        Event.initCall :: Event.getAppliedCall ::
          (migs.flatMap fun mg => [Event.recordCall mg.version])⟩ := by
  refine ⟨fun _ => rfl, ?_⟩
  unfold up
  rw [upLoop_spec true run now (hasVersion []) migs []
    (fun mg _ _ => by rw [executeMigration_nilDriver])]
  have hfil : (migs.filter fun mg => !hasVersion [] mg.version) = migs := by
    simp [hasVersion]
  rw [hfil]
  simp [execEvents_nilDriver]

/-! ### Claim C2 -/

/-- **C2** (amended): for every negative target, `UpTo` and `DownTo`
fail with `InvalidVersion` *after* the `Storage.Init` call the source
makes first (migrator.go:117,162) but before reading applied records,
executing any script, or recording/removing any migration record: the
applied set is returned unchanged and the whole trace is the single
`Init` call. -/
theorem c2_negative_target_rejection (dn : Bool) (run : String → Bool) (now : Nat)
    (migs : List Migration) (applied : List MigrationRecord) (target : Int)
    (h : target < 0) :
    upTo dn run now migs applied target =
      ⟨.error .invalidVersion, applied, [Event.initCall]⟩ ∧
    downTo dn run migs applied target =
      ⟨.error .invalidVersion, applied, [Event.initCall]⟩ := by
  constructor
  · unfold upTo; rw [if_pos h]
  · unfold downTo; rw [if_pos h]

/-- Witness for **C2**: `UpTo(-1)` and `DownTo(-1)` on a concrete
migrator return `InvalidVersion` with the storage unchanged. -/
theorem c2_negative_target_rejection_witness :
    ((-1 : Int) < 0) ∧
    upTo false alwaysOk 0 [sampleMig1] [sampleRec1] (-1) =
      ⟨.error .invalidVersion, [sampleRec1], [Event.initCall]⟩ ∧
    downTo false alwaysOk [sampleMig1] [sampleRec1] (-1) =
      ⟨.error .invalidVersion, [sampleRec1], [Event.initCall]⟩ :=
  ⟨by decide,
    (c2_negative_target_rejection false alwaysOk 0 [sampleMig1] [sampleRec1] (-1)
      (by decide)).1,
    (c2_negative_target_rejection false alwaysOk 0 [sampleMig1] [sampleRec1] (-1)
      (by decide)).2⟩

/-- Counterexample for **C2** as stated: the claim demands failure
*before any storage call*, but on a concrete migrator `UpTo(-1)` (and
`DownTo(-1)`) produce a non-empty trace — the `Storage.Init` call —
before returning `InvalidVersion` (migrator.go calls `storage.Init`
before validating the target). -/
theorem c2_counterexample :
    (upTo false alwaysOk 0 [sampleMig1] [] (-1)).res = .error .invalidVersion ∧
    (upTo false alwaysOk 0 [sampleMig1] [] (-1)).events = [Event.initCall] ∧
    (upTo false alwaysOk 0 [sampleMig1] [] (-1)).events ≠ [] ∧
    (downTo false alwaysOk [sampleMig1] [] (-1)).events ≠ [] := by
  decide

/-! ### Claim C9 -/

/-- **C9** (amended): configuration validation fails with the
invalid-configuration error exactly when a required connection
parameter (URI, Username, Password) is missing or *neither* migration
source is supplied; supplying both `MigrationsDir` and `MigrationsFS`
passes validation (the embedded FS then takes precedence).  Any
validation failure happens before the driver I/O of `New`. -/
theorem c9_validate_config (cfg : Config) :
    ((validateConfig cfg).isSome ↔
      (cfg.uri = "" ∨ cfg.username = "" ∨ cfg.password = "" ∨
        (cfg.migrationsDir = "" ∧ cfg.hasMigrationsFS = false))) ∧
    (∀ e, validateConfig cfg = some e →
      (∃ msg, e = .invalidConfig msg) ∧ newValidationPhase cfg = (.error e, [])) := by
  constructor
  · unfold validateConfig
    by_cases h1 : cfg.uri = "" <;> by_cases h2 : cfg.username = "" <;>
      by_cases h3 : cfg.password = "" <;>
        by_cases h4 : cfg.migrationsDir = "" ∧ cfg.hasMigrationsFS = false <;>
          simp [h1, h2, h3, h4]
  · intro e he
    refine ⟨?_, by unfold newValidationPhase; rw [he]⟩
    unfold validateConfig at he
    by_cases h1 : cfg.uri = "" <;> by_cases h2 : cfg.username = "" <;>
      by_cases h3 : cfg.password = "" <;>
        by_cases h4 : cfg.migrationsDir = "" ∧ cfg.hasMigrationsFS = false <;>
          simp [h1, h2, h3, h4] at he <;> exact ⟨_, he.symm⟩

/-- Witness for **C9**: a config with no URI is rejected with the
invalid-configuration error and no driver I/O happens. -/
theorem c9_validate_config_witness :
    (validateConfig ⟨"", "neo4j", "secret", "", "migrations", false⟩).isSome ∧
    newValidationPhase ⟨"", "neo4j", "secret", "", "migrations", false⟩ =
      (.error (.invalidConfig "URI is required"), []) :=
  ⟨(c9_validate_config ⟨"", "neo4j", "secret", "", "migrations", false⟩).1.mpr
      (Or.inl rfl),
    ((c9_validate_config ⟨"", "neo4j", "secret", "", "migrations", false⟩).2
      (.invalidConfig "URI is required") (by decide)).2⟩

/-- Counterexample for **C9** as stated: the claim demands failure when
*both* the directory source and the embedded source are supplied, but
`validateConfig` accepts such a config (migrate.go:91 only rejects the
neither-supplied case) and `New` proceeds to driver I/O. -/
theorem c9_counterexample :
    validateConfig ⟨"bolt://localhost:7687", "neo4j", "secret", "", "migrations", true⟩ =
      none ∧
    newValidationPhase ⟨"bolt://localhost:7687", "neo4j", "secret", "", "migrations", true⟩ =
      (.ok (), [NewEvent.connectDriver, NewEvent.verifyConnectivity]) :=
  ⟨rfl, rfl⟩

/-! ### Claim C3 -/

/-- **C3**: `Up` is idempotent.  If a first `Up()` succeeds (with any
driver, database behaviour and clock), then a second `Up()` over the
same declared sequence — reading the resulting applied records back in
any order and with any version-equivalent content — executes no
migration script, records nothing, and returns no error: its whole
trace is the `Init` call and the applied-records read, and the storage
is unchanged. -/
theorem c3_up_idempotent (dn dn' : Bool) (run run' : String → Bool) (now now' : Nat)
    (migs : List Migration) (applied applied' st' : List MigrationRecord)
    (evs : List Event)
    (h1 : up dn run now migs applied = ⟨.ok (), st', evs⟩)
    (h2 : ∀ v, hasVersion applied' v = hasVersion st' v) :
    up dn' run' now' migs applied' =
      ⟨.ok (), applied', [Event.initCall, Event.getAppliedCall]⟩ := by
  unfold up at h1
  rw [OpResult.mk.injEq] at h1
  have hok : (upLoop dn run now (hasVersion applied) migs applied).1 = .ok () := h1.1
  have hst : (upLoop dn run now (hasVersion applied) migs applied).2.1 = st' := h1.2.1
  have hcov := upLoop_ok_covers dn run now (hasVersion applied) migs applied hok
    (fun _ hv => hv)
  rw [hst] at hcov
  unfold up
  rw [upLoop_all_skip dn' run' now' (hasVersion applied') migs applied'
    (fun mg hmg => by rw [h2 mg.version]; exact hcov mg hmg)]

/-- Witness for **C3**: after a successful first `Up` of a one-migration
sequence, the second `Up` is a pure no-op. -/
theorem c3_up_idempotent_witness :
    up false alwaysOk 7 [sampleMig1] [] =
      ⟨.ok (), [mkRecord 7 sampleMig1],
        [Event.initCall, Event.getAppliedCall, Event.runStatement "CREATE (a)",
          Event.recordCall 1]⟩ ∧
    up false alwaysOk 8 [sampleMig1] [mkRecord 7 sampleMig1] =
      ⟨.ok (), [mkRecord 7 sampleMig1], [Event.initCall, Event.getAppliedCall]⟩ :=
  ⟨by decide,
    c3_up_idempotent false false alwaysOk alwaysOk 7 8 [sampleMig1] []
      [mkRecord 7 sampleMig1] [mkRecord 7 sampleMig1]
      [Event.initCall, Event.getAppliedCall, Event.runStatement "CREATE (a)",
        Event.recordCall 1]
      (by decide) (fun _ => rfl)⟩

/-! ### Claim C4 -/

/-- **C4**: if the forward script of a migration (`mfail`, preceded by
`pre`, followed by `rest`) fails during `Up()` while every earlier
unapplied migration succeeds, then `Up()` returns the apply-failure
error immediately: afterwards only the `pre` migrations are newly
recorded (no record for `mfail`, nothing from `rest` is attempted — the
trace ends at the failing script), and a subsequent `Up()` skips all of
`pre` and retries exactly `mfail` as its first unapplied migration. -/
theorem c4_up_partial_failure (dn : Bool) (run : String → Bool) (now now' : Nat)
    (pre rest : List Migration) (mfail : Migration) (applied : List MigrationRecord)
    (hpre : ∀ mg ∈ pre, hasVersion applied mg.version = false →
      (executeMigration dn run mg.upSQL).1 = true)
    (hnew : hasVersion applied mfail.version = false)
    (hfail : (executeMigration dn run mfail.upSQL).1 = false)
    (hdiff : ∀ mg ∈ pre, mg.version ≠ mfail.version) :
    up dn run now (pre ++ mfail :: rest) applied =
      ⟨.error (.applyFailed mfail.version),
        applied ++ (pre.filter fun mg => !hasVersion applied mg.version).map (mkRecord now),
        Event.initCall :: Event.getAppliedCall ::
          (((pre.filter fun mg => !hasVersion applied mg.version).flatMap fun mg =>
            execEvents dn run mg.upSQL ++ [Event.recordCall mg.version]) ++
            execEvents dn run mfail.upSQL)⟩ ∧
    hasVersion
      (applied ++ (pre.filter fun mg => !hasVersion applied mg.version).map (mkRecord now))
      mfail.version = false ∧
    up dn run now'
        (pre ++ mfail :: rest)
        (applied ++ (pre.filter fun mg => !hasVersion applied mg.version).map (mkRecord now)) =
      ⟨.error (.applyFailed mfail.version),
        applied ++ (pre.filter fun mg => !hasVersion applied mg.version).map (mkRecord now),
        Event.initCall :: Event.getAppliedCall :: execEvents dn run mfail.upSQL⟩ := by
  have h2 : hasVersion
      (applied ++ (pre.filter fun mg => !hasVersion applied mg.version).map (mkRecord now))
      mfail.version = false := by
    rw [hasVersion_append, hnew]
    simp only [Bool.false_or]
    rw [Bool.eq_false_iff]
    intro hc
    rcases List.any_eq_true.mp hc with ⟨r, hr, hrv⟩
    rcases List.mem_map.mp hr with ⟨mg, hmg, hmk⟩
    have hv : mg.version = mfail.version := by
      rw [← hmk] at hrv
      simpa [mkRecord] using hrv
    exact hdiff mg (List.mem_of_mem_filter hmg) hv
  refine ⟨?_, h2, ?_⟩
  · unfold up
    rw [upLoop_append]
    rw [upLoop_spec dn run now (hasVersion applied) pre applied hpre]
    dsimp only
    rw [upLoop_cons_exec dn run now rest _ hnew, hfail]
    simp
  · unfold up
    rw [upLoop_append]
    rw [upLoop_all_skip dn run now' _ pre _ ?_]
    · dsimp only
      rw [upLoop_cons_exec dn run now' rest _ h2, hfail]
      simp
    · intro mg hmg
      cases hv : hasVersion applied mg.version with
      | true =>
        rw [hasVersion_append, hv]
        rfl
      | false =>
        rw [hasVersion_append]
        have hmem : mkRecord now mg ∈
            (pre.filter fun mg => !hasVersion applied mg.version).map (mkRecord now) :=
          List.mem_map_of_mem _ (List.mem_filter.mpr ⟨hmg, by rw [hv]; rfl⟩)
        have hany : hasVersion
            ((pre.filter fun mg => !hasVersion applied mg.version).map (mkRecord now))
            mg.version = true :=
          List.any_eq_true.mpr ⟨mkRecord now mg, hmem, by simp [mkRecord]⟩
        rw [hany]
        simp

/-- Witness for **C4**: with `CREATE (b)` (the forward script of the
version-2 migration) failing, `Up` from empty state records version 1
only, fails with the version-2 apply error without touching version 3,
and the retry attempts version 2 first. -/
theorem c4_up_partial_failure_witness :
    up false failsOnB 5 [sampleMig1, sampleMig2, sampleMig3] [] =
      ⟨.error (.applyFailed 2), [mkRecord 5 sampleMig1],
        [Event.initCall, Event.getAppliedCall, Event.runStatement "CREATE (a)",
          Event.recordCall 1, Event.runStatement "CREATE (b)"]⟩ ∧
    hasVersion [mkRecord 5 sampleMig1] 2 = false ∧
    up false failsOnB 6 [sampleMig1, sampleMig2, sampleMig3] [mkRecord 5 sampleMig1] =
      ⟨.error (.applyFailed 2), [mkRecord 5 sampleMig1],
        [Event.initCall, Event.getAppliedCall, Event.runStatement "CREATE (b)"]⟩ :=
  c4_up_partial_failure false failsOnB 5 6 [sampleMig1] [sampleMig3] sampleMig2 []
    (by decide) (by decide) (by decide) (by decide)

/-! ### Claim C5 -/

/-- **C5**: a successful `UpTo(target)` with non-negative target on a
version-sorted declared sequence applies, in ascending order, exactly
the declared migrations with version at most the target that are not
already applied — recording each — and touches none above the target;
and whenever every declared version is at most the target (in
particular for any target above the highest declared version),
`UpTo(target)` coincides with `Up()`.  A target matching no declared
version is not an error. -/
theorem c5_upTo_exact (dn : Bool) (run : String → Bool) (now : Nat)
    (migs : List Migration) (applied : List MigrationRecord) (target : Int)
    (hsorted : migs.Pairwise fun a b => a.version ≤ b.version)
    (htarget : 0 ≤ target)
    (hexec : ∀ mg ∈ migs, mg.version ≤ target → hasVersion applied mg.version = false →
      (executeMigration dn run mg.upSQL).1 = true) :
    upTo dn run now migs applied target =
      ⟨.ok (),
        applied ++ ((migs.filter fun mg =>
          !hasVersion applied mg.version && decide (mg.version ≤ target)).map (mkRecord now)),
        Event.initCall :: Event.getAppliedCall ::
          ((migs.filter fun mg =>
            !hasVersion applied mg.version && decide (mg.version ≤ target)).flatMap fun mg =>
            execEvents dn run mg.upSQL ++ [Event.recordCall mg.version])⟩ ∧
    ((∀ mg ∈ migs, mg.version ≤ target) →
      upTo dn run now migs applied target = up dn run now migs applied) := by
  constructor
  · unfold upTo
    rw [if_neg (by omega)]
    rw [upToLoop_eq_upLoop, takeWhile_le_eq_filter target migs hsorted]
    rw [upLoop_spec dn run now (hasVersion applied) _ applied ?hex]
    case hex =>
      intro mg hmg hskip
      rcases List.mem_filter.mp hmg with ⟨hm, hle⟩
      exact hexec mg hm (by simpa using hle) hskip
    rw [List.filter_filter]
  · intro hall
    unfold upTo up
    rw [if_neg (by omega)]
    rw [upToLoop_eq_upLoop, takeWhile_le_eq_filter target migs hsorted]
    rw [List.filter_eq_self.mpr fun mg hmg => by
      simp only [decide_eq_true_eq]; exact hall mg hmg]

/-- Witness for **C5**: with declared versions `{1,2,3}`, `UpTo(2)` from
the empty applied set records exactly versions 1 and 2, in that order,
and leaves version 3 unapplied. -/
theorem c5_upTo_exact_witness :
    upTo false alwaysOk 9 [sampleMig1, sampleMig2, sampleMig3] [] 2 =
      ⟨.ok (), [mkRecord 9 sampleMig1, mkRecord 9 sampleMig2],
        [Event.initCall, Event.getAppliedCall, Event.runStatement "CREATE (a)",
          Event.recordCall 1, Event.runStatement "CREATE (b)", Event.recordCall 2]⟩ ∧
    upTo false alwaysOk 9 [sampleMig1, sampleMig2, sampleMig3] [] 7 =
      up false alwaysOk 9 [sampleMig1, sampleMig2, sampleMig3] [] :=
  ⟨(c5_upTo_exact false alwaysOk 9 [sampleMig1, sampleMig2, sampleMig3] [] 2
      (by decide) (by decide) (by decide)).1,
    (c5_upTo_exact false alwaysOk 9 [sampleMig1, sampleMig2, sampleMig3] [] 7
      (by decide) (by decide) (by decide)).2 (by decide)⟩

/-! ### Claim C1 -/

/-- **C1** (amended): when `GetAppliedMigrations` returns the applied
records sorted ascending by version (as the bundled Neo4j storage's
`ORDER BY m.version` guarantees), `DownTo(target)` with non-negative
target rolls back, in descending version order, exactly the applied
records with version strictly greater than the target — executing each
one's reverse script and then removing its record — and rolls back no
record with version at most the target: the remaining state is exactly
the `version <= target` part of the applied set.  (For an *arbitrary*
record order the property fails; see the counterexample.) -/
theorem c1_downTo_descending_rollback (dn : Bool) (run : String → Bool)
    (migs : List Migration) (applied : List MigrationRecord) (target : Int)
    (htarget : 0 ≤ target)
    (hsorted : applied.Pairwise fun a b => a.version ≤ b.version)
    (hok : ∀ r ∈ applied, target < r.version → rollbackOk dn run migs r = true) :
    downTo dn run migs applied target =
      ⟨.ok (), applied.filter fun r => decide (r.version ≤ target),
        Event.initCall :: Event.getAppliedCall ::
          ((applied.filter fun r => decide (target < r.version)).reverse.flatMap
            (rollbackEvents dn run migs))⟩ := by
  unfold downTo
  rw [if_neg (by omega)]
  rw [downToLoop_spec dn run migs target applied.reverse applied
    (List.pairwise_reverse.mpr hsorted)
    (fun r hr => hok r (List.mem_reverse.mp hr))]
  rw [removeVersions_eq_filter_le]
  rw [List.filter_reverse]

/-- Witness for **C1**: with `{1,2,3}` applied (ascending) and
`DownTo(1)`, versions 3 then 2 are rolled back (reverse script, then
record removal, each) and exactly the version-1 record remains. -/
theorem c1_downTo_descending_rollback_witness :
    downTo false alwaysOk [sampleMig1, sampleMig2, sampleMig3]
        [sampleRec1, sampleRec2, sampleRec3] 1 =
      ⟨.ok (), [sampleRec1],
        [Event.initCall, Event.getAppliedCall,
          Event.runStatement "MATCH (c) DELETE c", Event.removeCall 3,
          Event.runStatement "MATCH (b) DELETE b", Event.removeCall 2]⟩ :=
  c1_downTo_descending_rollback false alwaysOk [sampleMig1, sampleMig2, sampleMig3]
    [sampleRec1, sampleRec2, sampleRec3] 1 (by decide) (by decide) (by decide)

/-- Counterexample for **C1** as stated: the claim quantifies over *any*
order of `GetAppliedMigrations` results, but `DownTo` iterates the
returned slice from its end without sorting (migrator.go:175-180).
With the records returned in descending order `[version 2, version 1]`
and target 1, the loop sees version 1 first and breaks immediately: the
version-2 record — strictly greater than the target — is never rolled
back (no reverse script runs, no record is removed), and the final
state still contains it. -/
theorem c1_counterexample :
    downTo false alwaysOk [sampleMig1, sampleMig2] [sampleRec2, sampleRec1] 1 =
      ⟨.ok (), [sampleRec2, sampleRec1], [Event.initCall, Event.getAppliedCall]⟩ ∧
    sampleRec2 ∈ [sampleRec2, sampleRec1] ∧ (1 : Int) < sampleRec2.version := by
  decide

/-! ### Claim C6 -/

/-- **C6** (amended): whatever the filesystem listing order, the
sequence `parseMigrations` returns is sorted *nondecreasing* by version;
it is strictly ascending whenever the parsed versions are pairwise
distinct.  (With two files parsing to the same version — e.g.
`001_a.cypher` and `1_b.cypher` — adjacent equal versions occur, so the
unconditional strict form of the claim fails; see the
counterexample.) -/
theorem c6_parse_sorted (chk : String → String) (entries : List DirEntry)
    (migs : List Migration) (h : parseMigrations chk entries = .ok migs) :
    ((migs.map (·.version)).Pairwise (· ≤ ·)) ∧
    ((migs.map (·.version)).Nodup → (migs.map (·.version)).Pairwise (· < ·)) := by
  unfold parseMigrations at h
  cases hp : parseLoop chk entries with
  | error e => rw [hp] at h; cases h
  | ok l =>
    rw [hp] at h
    dsimp only at h
    by_cases he : l.isEmpty
    · rw [if_pos he] at h; cases h
    · rw [if_neg he] at h
      have hm : migs = sortByVersion l := by
        injection h with h
        exact h.symm
      subst hm
      have hs : ((sortByVersion l).map (·.version)).Pairwise (· ≤ ·) :=
        List.pairwise_map.mpr (sortByVersion_sorted l)
      refine ⟨hs, fun hnd => ?_⟩
      exact (hs.and hnd).imp fun hab => lt_of_le_of_ne hab.1 hab.2

/-- Witness for **C6**: the seed example — files listed as
`003_third`, `001_first`, `002_second` — parses to versions `[1,2,3]`
in that order, a nondecreasing sequence. -/
theorem c6_parse_sorted_witness :
    parseMigrations (fun _ => "h")
        [⟨"003_third.cypher", false, contentSample⟩,
          ⟨"001_first.cypher", false, contentSample⟩,
          ⟨"002_second.cypher", false, contentSample⟩] =
      .ok [⟨1, "first", "CREATE (n);", "MATCH (n) DELETE n;", "h"⟩,
        ⟨2, "second", "CREATE (n);", "MATCH (n) DELETE n;", "h"⟩,
        ⟨3, "third", "CREATE (n);", "MATCH (n) DELETE n;", "h"⟩] ∧
    (([⟨1, "first", "CREATE (n);", "MATCH (n) DELETE n;", "h"⟩,
        ⟨2, "second", "CREATE (n);", "MATCH (n) DELETE n;", "h"⟩,
        ⟨3, "third", "CREATE (n);", "MATCH (n) DELETE n;", "h"⟩] : List Migration).map
      (·.version)).Pairwise (· ≤ ·) :=
  ⟨by decide,
    (c6_parse_sorted (fun _ => "h")
      [⟨"003_third.cypher", false, contentSample⟩,
        ⟨"001_first.cypher", false, contentSample⟩,
        ⟨"002_second.cypher", false, contentSample⟩] _ (by decide)).1⟩

/-- Counterexample for **C6** as stated: two files can parse to the
*same* version (`001_a.cypher` and `1_b.cypher` both yield version 1 —
the parser never deduplicates or rejects duplicates, parser.go:68-70),
so the parsed version sequence `[1, 1]` is not strictly ascending. -/
theorem c6_counterexample :
    parseMigrations (fun _ => "h")
        [⟨"001_a.cypher", false, contentSample⟩, ⟨"1_b.cypher", false, contentSample⟩] =
      .ok [⟨1, "a", "CREATE (n);", "MATCH (n) DELETE n;", "h"⟩,
        ⟨1, "b", "CREATE (n);", "MATCH (n) DELETE n;", "h"⟩] ∧
    (([⟨1, "a", "CREATE (n);", "MATCH (n) DELETE n;", "h"⟩,
        ⟨1, "b", "CREATE (n);", "MATCH (n) DELETE n;", "h"⟩] : List Migration).map
      (·.version)) = [1, 1] ∧
    ¬ (([(1 : Int), 1]).Pairwise (· < ·)) := by
  refine ⟨by decide, by decide, by decide⟩

/-! ### Claim C7 -/

theorem parseMigrationFile_error_iff (chk : String → String) (v : Int)
    (n content : String) (e : SplitErr) :
    parseMigrationFile chk v n content = .error e ↔ splitUpDown content = .error e := by
  unfold parseMigrationFile
  cases splitUpDown content with
  | error e0 => simp
  | ok s => simp

/-- The collection loop aborts on the first failing file: if any listed
non-directory entry matches the migration pattern and fails to split,
`parseLoop` returns a file-failure error naming such an entry. -/
theorem parseLoop_aborts (chk : String → String) :
    ∀ (entries : List DirEntry),
    (∃ w ∈ entries, w.isDir = false ∧ (matchMigrationName w.name).isSome = true ∧
      ∃ e0, splitUpDown w.content = .error e0) →
    ∃ f e, parseLoop chk entries = .error (.fileFailed f e) ∧
      ∃ w ∈ entries, w.name = f ∧ w.isDir = false ∧
        (matchMigrationName w.name).isSome = true ∧ splitUpDown w.content = .error e := by
  intro entries
  induction entries with
  | nil => rintro ⟨w, hw, _⟩; cases hw
  | cons entry rest ih =>
    rintro ⟨w, hw, hwdir, hwmatch, e0, hwsplit⟩
    cases hdir : entry.isDir with
    | true =>
      have hwrest : w ∈ rest := by
        rcases List.mem_cons.mp hw with h | h
        · rw [h, hdir] at hwdir; cases hwdir
        · exact h
      rcases ih ⟨w, hwrest, hwdir, hwmatch, e0, hwsplit⟩ with ⟨f, e, hp, w', hw', hrest⟩
      have hstep : parseLoop chk (entry :: rest) = parseLoop chk rest := by
        simp [parseLoop, hdir]
      rw [hstep]
      exact ⟨f, e, hp, w', List.mem_cons_of_mem _ hw', hrest⟩
    | false =>
      cases hm : matchMigrationName entry.name with
      | none =>
        have hwrest : w ∈ rest := by
          rcases List.mem_cons.mp hw with h | h
          · rw [h, hm] at hwmatch; simp at hwmatch
          · exact h
        rcases ih ⟨w, hwrest, hwdir, hwmatch, e0, hwsplit⟩ with ⟨f, e, hp, w', hw', hrest⟩
        have hstep : parseLoop chk (entry :: rest) = parseLoop chk rest := by
          simp [parseLoop, hdir, hm]
        rw [hstep]
        exact ⟨f, e, hp, w', List.mem_cons_of_mem _ hw', hrest⟩
      | some vn =>
        cases hs : splitUpDown entry.content with
        | error e1 =>
          refine ⟨entry.name, e1, ?_, entry, List.mem_cons_self _ _, rfl, hdir,
            by rw [hm]; rfl, hs⟩
          simp [parseLoop, hdir, hm, parseMigrationFile, hs]
        | ok s =>
          have hwrest : w ∈ rest := by
            rcases List.mem_cons.mp hw with h | h
            · rw [h, hs] at hwsplit; simp at hwsplit
            · exact h
          rcases ih ⟨w, hwrest, hwdir, hwmatch, e0, hwsplit⟩ with ⟨f, e, hp, w', hw', hrest⟩
          have hstep : parseLoop chk (entry :: rest) = .error (.fileFailed f e) := by
            simp [parseLoop, hdir, hm, parseMigrationFile, hs, hp]
          rw [hstep]
          exact ⟨f, e, rfl, w', List.mem_cons_of_mem _ hw', hrest⟩

/-- **C7**: for any file content, an empty whitespace-trimmed up section
makes the split fail with `noUpStatement`; a non-empty up section with
an empty trimmed down section fails with `noDownStatement`; and any
matching non-directory file whose split fails aborts the entire
directory parse — no sequence is returned, and the error is a
file-failure naming an offending file. -/
theorem c7_missing_section_rejection :
    (∀ content, strTrim (sectionsOf content).1 = "" →
      splitUpDown content = .error .noUpStatement) ∧
    (∀ content, strTrim (sectionsOf content).1 ≠ "" →
      strTrim (sectionsOf content).2 = "" →
      splitUpDown content = .error .noDownStatement) ∧
    (∀ (chk : String → String) (entries : List DirEntry) (w : DirEntry),
      w ∈ entries → w.isDir = false → (matchMigrationName w.name).isSome = true →
      (∃ e0, splitUpDown w.content = .error e0) →
      (∀ migs, parseMigrations chk entries ≠ .ok migs) ∧
      ∃ f e, parseMigrations chk entries = .error (.fileFailed f e) ∧
        ∃ w' ∈ entries, w'.name = f ∧ splitUpDown w'.content = .error e) := by
  refine ⟨?_, ?_, ?_⟩
  · intro content h
    unfold splitUpDown
    rw [if_pos h]
  · intro content h1 h2
    unfold splitUpDown
    rw [if_neg h1, if_pos h2]
  · intro chk entries w hw hdir hmatch hsplit
    rcases hsplit with ⟨e0, hs⟩
    rcases parseLoop_aborts chk entries ⟨w, hw, hdir, hmatch, e0, hs⟩ with
      ⟨f, e, hp, w', hw', hname, _, _, hs'⟩
    have hpm : parseMigrations chk entries = .error (.fileFailed f e) := by
      unfold parseMigrations
      rw [hp]
    refine ⟨fun migs hmigs => ?_, f, e, hpm, w', hw', hname, hs'⟩
    rw [hpm] at hmigs
    cases hmigs

/-- Witness for **C7**: a file with only a Down section fails with the
missing-up error, a file with only an Up section fails with the
missing-down error, and a directory containing the latter file fails to
parse as a whole with that filename attached. -/
theorem c7_missing_section_rejection_witness :
    splitUpDown contentOnlyDown = .error .noUpStatement ∧
    splitUpDown contentOnlyUp = .error .noDownStatement ∧
    (∃ f e, parseMigrations (fun _ => "h")
        [⟨"001_onlyup.cypher", false, contentOnlyUp⟩] = .error (.fileFailed f e) ∧
      ∃ w ∈ [(⟨"001_onlyup.cypher", false, contentOnlyUp⟩ : DirEntry)],
        w.name = f ∧ splitUpDown w.content = .error e) :=
  ⟨c7_missing_section_rejection.1 contentOnlyDown (by decide),
    c7_missing_section_rejection.2.1 contentOnlyUp (by decide) (by decide),
    (c7_missing_section_rejection.2.2 (fun _ => "h")
      [⟨"001_onlyup.cypher", false, contentOnlyUp⟩]
      ⟨"001_onlyup.cypher", false, contentOnlyUp⟩
      (List.mem_singleton.mpr rfl) (by decide) (by decide)
      ⟨.noDownStatement, by decide⟩).2⟩

/-! ### Claim C8 -/

theorem statusRow_version_eq (applied : List MigrationRecord) (mig : Migration) :
    (statusRow applied mig).version = mig.version := by
  unfold statusRow
  cases lookupRecord applied mig.version <;> rfl

/-- **C8**: `Status()` returns — without error, whatever the checksum
situation — one row per declared migration, in declared (ascending)
order, each row carrying the declared migration's version, name-side
data and *declared* checksum; the row is marked applied with the stored
timestamp exactly when an applied record with that version exists; and
checksum differences surface only in the warning list, never in the
result. -/
theorem c8_status_rows (migs : List Migration) (applied : List MigrationRecord)
    (hsorted : migs.Pairwise fun a b => a.version ≤ b.version) :
    status migs applied =
      (.ok (migs.map (statusRow applied)),
        (migs.filter (checksumMismatch applied)).map (·.version)) ∧
    (((migs.map (statusRow applied)).map (·.version)).Pairwise (· ≤ ·)) ∧
    (∀ mig ∈ migs,
      (statusRow applied mig).version = mig.version ∧
      (statusRow applied mig).checksum = mig.checksum ∧
      (statusRow applied mig).applied = hasVersion applied mig.version ∧
      (statusRow applied mig).appliedAt =
        (lookupRecord applied mig.version).map (·.appliedAt)) := by
  refine ⟨?_, ?_, ?_⟩
  · unfold status
    rw [statusLoop_eq]
  · rw [List.map_map]
    refine List.pairwise_map.mpr (hsorted.imp ?_)
    intro a b h
    simp only [Function.comp]
    rw [statusRow_version_eq, statusRow_version_eq]
    exact h
  · intro mig hmig
    refine ⟨statusRow_version_eq _ _, ?_, ?_, ?_⟩
    · unfold statusRow
      cases lookupRecord applied mig.version <;> rfl
    · rw [hasVersion_eq_lookup_isSome]
      unfold statusRow
      cases lookupRecord applied mig.version <;> rfl
    · unfold statusRow
      cases lookupRecord applied mig.version <;> rfl

/-- Witness for **C8**: one applied record whose stored checksum `zz`
differs from the declared `c1`: `Status` still returns both rows
(version 1 applied at its stored time with the *declared* checksum,
version 2 pending), with version 1 in the warning list. -/
theorem c8_status_rows_witness :
    status [sampleMig1, sampleMig2] [⟨1, "first", 11, "zz"⟩] =
      (.ok [⟨1, "first", true, some 11, "c1"⟩, ⟨2, "second", false, none, "c2"⟩],
        [1]) ∧
    (statusRow [⟨1, "first", 11, "zz"⟩] sampleMig1).checksum = sampleMig1.checksum :=
  ⟨(c8_status_rows [sampleMig1, sampleMig2] [⟨1, "first", 11, "zz"⟩] (by decide)).1,
    ((c8_status_rows [sampleMig1, sampleMig2] [⟨1, "first", 11, "zz"⟩] (by decide)).2.2
      sampleMig1 (List.mem_cons_self _ _)).2.1⟩

end Neo4go
